import Mathlib

/-!
Shallow embedding of the pack-decode object cache of `src/git/src/internal/pack/cache.rs`
(bounded LRU-backed `ObjectCache` and the `kvstore` distributed variant), together with
proofs of the specified properties.

Modelling conventions:
* `crate::hash::Hash` (a fixed-width content hash, defined outside the given slice) is
  used by the cache only through equality, hashing and copying; it is modelled as `Nat`.
* `std::collections::HashMap` is modelled as an association list with last-write-wins
  insertion (`assocInsert`) and key lookup (`assocGet`); only `insert` and `get` are used
  by the source.
* `lru::LruCache` is modelled as a capacity plus a list of key-value entries ordered
  most-recently-used first.  `put` removes any existing entry for the key, prepends the
  new entry and truncates to the capacity (the `lru` crate evicts the least recently
  used entry when a fresh key is inserted at capacity); `get` promotes a hit to the
  front and leaves the state unchanged on a miss.
* A Rust panic (`unwrap` on `None` / `Err`) is modelled as `Option.none` / `Except.error`.
-/

namespace MegaPackCache

/-- Content hash (`crate::hash::Hash`): the cache only compares, hashes and copies it,
so it is modelled as `Nat`. -/
abbrev Hash := Nat

/-- `struct OffHash { o: usize, h: Hash }` — the composite key. -/
structure OffHash where
  o : Nat
  h : Hash
deriving DecidableEq, Repr

/-- `HashMap::get` on the association-list model (also the membership view of an LRU
entry list, which is an association list ordered by recency). -/
def assocGet {K A : Type} [DecidableEq K] (l : List (K × A)) (k : K) : Option A :=
  (l.find? (fun p => decide (p.1 = k))).map (fun p => p.2)

/-- `HashMap::insert` on the association-list model: last write wins. -/
def assocInsert {K A : Type} [DecidableEq K] (l : List (K × A)) (k : K) (v : A) :
    List (K × A) :=
  (k, v) :: l.filter (fun p => decide (p.1 ≠ k))

/-- `lru::LruCache`: bounded, recency-evicting map.  `entries` is ordered
most-recently-used first and `cap` is the fixed capacity. -/
structure LruCache (K V : Type) where
  cap : Nat
  entries : List (K × V)
deriving Repr

/-- Entry-list effect of `LruCache::put`: drop any old entry for `k`, prepend the new
entry as most recently used, evict from the least-recently-used end past capacity. -/
def lruPutEntries {K V : Type} [DecidableEq K] (cap : Nat) (l : List (K × V)) (k : K)
    (v : V) : List (K × V) :=
  (assocInsert l k v).take cap

/-- Entry-list effect of `LruCache::get`: a hit is promoted to most recently used and
returned; a miss leaves the entries untouched. -/
def lruGetEntries {K V : Type} [DecidableEq K] (l : List (K × V)) (k : K) :
    Option V × List (K × V) :=
  match l.find? (fun p => decide (p.1 = k)) with
  | none => (none, l)
  | some p => (some p.2, p :: l.filter (fun q => decide (q.1 ≠ k)))

/-- `LruCache::put`. -/
def LruCache.put {K V : Type} [DecidableEq K] (c : LruCache K V) (k : K) (v : V) :
    LruCache K V :=
  ⟨c.cap, lruPutEntries c.cap c.entries k v⟩

/-- `LruCache::get` (mutating: promotes a hit). -/
def LruCache.get {K V : Type} [DecidableEq K] (c : LruCache K V) (k : K) :
    Option V × LruCache K V :=
  ((lruGetEntries c.entries k).1, ⟨c.cap, (lruGetEntries c.entries k).2⟩)

/-- Pure membership lookup on an `LruCache` (no promotion), used to state properties. -/
def lruLookup {K V : Type} [DecidableEq K] (c : LruCache K V) (k : K) : Option V :=
  assocGet c.entries k

/-- `pub struct ObjectCache<T>` — the bounded in-process cache: unbounded offset index,
bounded hash index, bounded object store. -/
structure ObjectCache (T : Type) where
  ioffset : List (Nat × OffHash)
  ihash : LruCache Hash OffHash
  inner : LruCache OffHash T

/-- `const CACHE_SIZE: NonZeroUsize = 1000`. -/
def CACHE_SIZE : Nat := 1000

/-- An empty bounded cache whose two LRU structures share capacity `cap`. -/
def ObjectCache.empty (T : Type) (cap : Nat) : ObjectCache T :=
  ⟨[], ⟨cap, []⟩, ⟨cap, []⟩⟩

/-- `NonZeroUsize::new`: `none` exactly on zero. -/
def nonZeroUsizeNew (n : Nat) : Option Nat :=
  if n = 0 then none else some n

/-- `ObjectCache::new(size)`: an explicit size hint goes through
`NonZeroUsize::new(size).unwrap()` (panic on zero, modelled as `none`);
an absent hint falls back to `CACHE_SIZE`. -/
def ObjectCache.new (T : Type) (size : Option Nat) : Option (ObjectCache T) :=
  (match size with
   | some s => nonZeroUsizeNew s
   | none => some CACHE_SIZE).map (fun lru_size => ObjectCache.empty T lru_size)

/-- `ObjectCache::get_hash` — takes `&self` and only calls `HashMap::get`,
so it returns a value without touching the state. -/
def ObjectCache.get_hash {T : Type} (c : ObjectCache T) (offset : Nat) : Option Hash :=
  (assocGet c.ioffset offset).map (fun oh => oh.h)

/-- `ObjectCache::put`: writes all three structures. -/
def ObjectCache.put {T : Type} (c : ObjectCache T) (offset : Nat) (hash : Hash)
    (obj : T) : ObjectCache T :=
  ⟨assocInsert c.ioffset offset ⟨offset, hash⟩,
   c.ihash.put hash ⟨offset, hash⟩,
   c.inner.put ⟨offset, hash⟩ obj⟩

/-- `ObjectCache::get`: offset → composite key via the offset index, then `?`-chained
LRU reads of the hash index and the object store (each hit promotes). -/
def ObjectCache.get {T : Type} (c : ObjectCache T) (offset : Nat) :
    Option T × ObjectCache T :=
  match assocGet c.ioffset offset with
  | none => (none, c)
  | some oh =>
    match (c.ihash.get oh.h).1 with
    | none => (none, ⟨c.ioffset, (c.ihash.get oh.h).2, c.inner⟩)
    | some _ =>
      ((c.inner.get oh).1, ⟨c.ioffset, (c.ihash.get oh.h).2, (c.inner.get oh).2⟩)

/-- `ObjectCache::get_by_hash`: hash → composite key → object, both LRU reads promote. -/
def ObjectCache.get_by_hash {T : Type} (c : ObjectCache T) (h : Hash) :
    Option T × ObjectCache T :=
  match (c.ihash.get h).1 with
  | none => (none, ⟨c.ioffset, (c.ihash.get h).2, c.inner⟩)
  | some oh =>
    ((c.inner.get oh).1, ⟨c.ioffset, (c.ihash.get h).2, (c.inner.get oh).2⟩)

/-- One client-visible operation of the `_Cache` trait. -/
inductive Op (T : Type) where
  | put (offset : Nat) (hash : Hash) (obj : T)
  | get (offset : Nat)
  | getByHash (h : Hash)
  | getHash (offset : Nat)

/-- State transition of one operation.  `get_hash` takes `&self` (immutable borrow) and
only performs a `HashMap` read, so it does not change the state. -/
def step {T : Type} (c : ObjectCache T) : Op T → ObjectCache T
  | .put o h x => c.put o h x
  | .get o => (c.get o).2
  | .getByHash h => (c.get_by_hash h).2
  | .getHash _ => c

/-- Run a sequence of operations. -/
def run {T : Type} (c : ObjectCache T) (ops : List (Op T)) : ObjectCache T :=
  ops.foldl step c

/-- Fold a list of `(offset, hash, object)` triples through `put`. -/
def putAll {T : Type} (c : ObjectCache T) (ts : List (Nat × Hash × T)) : ObjectCache T :=
  ts.foldl (fun c t => c.put t.1 t.2.1 t.2.2) c

/-- The offset of a `put` operation (`none` for read operations). -/
def Op.putOffset {T : Type} : Op T → Option Nat
  | .put o _ _ => some o
  | _ => none

/-- The hash of a `put` operation (`none` for read operations). -/
def Op.putHash {T : Type} : Op T → Option Hash
  | .put _ h _ => some h
  | _ => none

/-- The hash-index entry list produced by folding `put` calls: each `put(o, h, _)`
performs `ihash.put(h, OffHash(o, h))`. -/
def ihashFold (cap : Nat) (l : List (Hash × OffHash)) :
    List (Nat × Hash) → List (Hash × OffHash) :=
  fun ts => ts.foldl (fun l t => lruPutEntries cap l t.2 ⟨t.1, t.2⟩) l

namespace kvstore

/-- Modelled from the spec: the remote key-value client (`kvcache::KVCache` over
`kvcache::connector::redis::RedisClient`, a crate of this repository that is not part
of the given slice) exposes `set(key, value) -> Result<(), Error>` and
`get(key) -> Option<value>` over the network.  The remote state is modelled as an
association list plus a transport-fault flag; because the declared `get` signature has
no error channel, a `get` issued while transport is faulty can only answer `none`,
while `set` reports the fault through its `Result`. -/
structure KVCache (T : Type) where
  store : List (Hash × T)
  fault : Bool

/-- `KVCache::new()`: fresh client, healthy transport. -/
def KVCache.new (T : Type) : KVCache T :=
  ⟨[], false⟩

/-- Modelled from the spec: `set(key, value) -> Result<(), Error>`. -/
def KVCache.set {T : Type} (c : KVCache T) (k : Hash) (v : T) : Except Unit (KVCache T) :=
  if c.fault then .error () else .ok ⟨assocInsert c.store k v, c.fault⟩

/-- Modelled from the spec: `get(key) -> Option<value>` — no error channel, so a
transport fault yields `none`. -/
def KVCache.get {T : Type} (c : KVCache T) (k : Hash) : Option T :=
  if c.fault then none else assocGet c.store k

/-- `kvstore::ObjectCache<T>`: local unbounded offset index plus the remote store. -/
structure ObjectCache (T : Type) where
  ioffset : List (Nat × Hash)
  inner : KVCache T

/-- `Default::default()` for the distributed cache. -/
def ObjectCache.default (T : Type) : ObjectCache T :=
  ⟨[], KVCache.new T⟩

/-- `kvstore::ObjectCache::new(_size)`: ignores the size hint entirely. -/
def ObjectCache.new (T : Type) (_size : Option Nat) : ObjectCache T :=
  ObjectCache.default T

/-- `kvstore::ObjectCache::get_hash`: purely local read. -/
def ObjectCache.get_hash {T : Type} (c : ObjectCache T) (offset : Nat) : Option Hash :=
  assocGet c.ioffset offset

/-- `kvstore::ObjectCache::put`: local insert, then `inner.set(hash, obj).unwrap()`;
the `unwrap` panic on a transport fault is modelled as `Except.error`. -/
def ObjectCache.put {T : Type} (c : ObjectCache T) (offset : Nat) (hash : Hash)
    (obj : T) : Except Unit (ObjectCache T) :=
  match KVCache.set c.inner hash obj with
  | .ok inner1 => .ok ⟨assocInsert c.ioffset offset hash, inner1⟩
  | .error e => .error e

/-- `kvstore::ObjectCache::get`: offset → hash locally, then a remote `get`. -/
def ObjectCache.get {T : Type} (c : ObjectCache T) (offset : Nat) : Option T :=
  match assocGet c.ioffset offset with
  | none => none
  | some h => KVCache.get c.inner h

/-- `kvstore::ObjectCache::get_by_hash`: a direct remote `get`. -/
def ObjectCache.get_by_hash {T : Type} (c : ObjectCache T) (h : Hash) : Option T :=
  KVCache.get c.inner h

end kvstore

/-! ### Basic lemmas about the association-list and LRU models -/

theorem find?_filter_of_imp {A : Type} (p q : A → Bool) (l : List A)
    (h : ∀ a, p a = true → q a = true) :
    (l.filter q).find? p = l.find? p := by
  induction l with
  | nil => rfl
  | cons a l ih =>
    cases hq : q a with
    | true =>
      rw [List.filter_cons_of_pos hq]
      cases hp : p a with
      | true => rw [List.find?_cons_of_pos _ hp, List.find?_cons_of_pos _ hp]
      | false => rw [List.find?_cons_of_neg _ (by simp [hp]),
          List.find?_cons_of_neg _ (by simp [hp]), ih]
    | false =>
      have hp : p a = false := by
        cases hpa : p a
        · rfl
        · exact absurd (h a hpa) (by simp [hq])
      rw [List.filter_cons_of_neg (by simp [hq]), ih,
        List.find?_cons_of_neg _ (by simp [hp])]

theorem assocGet_insert_self {K A : Type} [DecidableEq K] (l : List (K × A)) (k : K)
    (v : A) : assocGet (assocInsert l k v) k = some v := by
  unfold assocGet assocInsert
  rw [List.find?_cons_of_pos _ (by simp)]
  rfl

theorem assocGet_insert_ne {K A : Type} [DecidableEq K] (l : List (K × A)) (k k' : K)
    (v : A) (h : k' ≠ k) : assocGet (assocInsert l k v) k' = assocGet l k' := by
  unfold assocGet assocInsert
  rw [List.find?_cons_of_neg _ (by simp; exact fun hkk => h hkk.symm),
    find?_filter_of_imp]
  intro p hp
  simp at hp ⊢
  rw [hp]
  exact h

theorem assocGet_eq_none_iff {K A : Type} [DecidableEq K] (l : List (K × A)) (k : K) :
    assocGet l k = none ↔ ∀ p ∈ l, p.1 ≠ k := by
  unfold assocGet
  rw [Option.map_eq_none']
  simp [List.find?_eq_none]

theorem lruGet_fst {K V : Type} [DecidableEq K] (c : LruCache K V) (k : K) :
    (c.get k).1 = lruLookup c k := by
  unfold LruCache.get lruGetEntries lruLookup assocGet
  cases hf : c.entries.find? (fun p => decide (p.1 = k)) <;> simp [hf]

theorem lruLookup_lruGet_snd {K V : Type} [DecidableEq K] (c : LruCache K V) (k k' : K) :
    lruLookup (c.get k).2 k' = lruLookup c k' := by
  unfold LruCache.get lruGetEntries lruLookup assocGet
  cases hf : c.entries.find? (fun p => decide (p.1 = k)) with
  | none => simp
  | some p =>
    have hpk : p.1 = k := by simpa using List.find?_some hf
    by_cases hk : k' = k
    · subst hk
      simp only
      rw [List.find?_cons_of_pos _ (by simp [hpk]), hf]
    · simp only
      rw [List.find?_cons_of_neg _ (by simp [hpk]; exact fun h => hk h.symm),
        find?_filter_of_imp]
      intro q hq
      simp at hq ⊢
      rw [hq]
      exact hk

theorem mem_lruGetEntries_snd {K V : Type} [DecidableEq K] {l : List (K × V)} {k : K}
    {q : K × V} (hq : q ∈ (lruGetEntries l k).2) : q ∈ l := by
  unfold lruGetEntries at hq
  revert hq
  cases hf : l.find? (fun p => decide (p.1 = k)) with
  | none => exact fun hq => hq
  | some p =>
    intro hq
    rcases List.mem_cons.1 hq with h | h
    · exact h ▸ List.mem_of_find?_eq_some hf
    · exact (List.mem_filter.1 h).1

theorem mem_lruPutEntries {K V : Type} [DecidableEq K] {cap : Nat} {l : List (K × V)}
    {k : K} {v : V} {q : K × V} (hq : q ∈ lruPutEntries cap l k v) :
    q = (k, v) ∨ q ∈ l := by
  unfold lruPutEntries assocInsert at hq
  rcases List.mem_cons.1 (List.mem_of_mem_take hq) with h | h
  · exact Or.inl h
  · exact Or.inr (List.mem_filter.1 h).1

theorem lruLookup_put_self {K V : Type} [DecidableEq K] (c : LruCache K V) (k : K)
    (v : V) (hcap : 1 ≤ c.cap) : lruLookup (c.put k v) k = some v := by
  unfold LruCache.put lruPutEntries lruLookup
  obtain ⟨cap, hcap'⟩ : ∃ m, c.cap = m + 1 := ⟨c.cap - 1, by omega⟩
  rw [hcap']
  unfold assocInsert assocGet
  rw [List.take_succ_cons, List.find?_cons_of_pos _ (by simp)]
  rfl

theorem lruLookup_put_ne_none {K V : Type} [DecidableEq K] (c : LruCache K V)
    (k k' : K) (v : V) (h : k' ≠ k) (h0 : lruLookup c k' = none) :
    lruLookup (c.put k v) k' = none := by
  unfold LruCache.put lruLookup at *
  rw [assocGet_eq_none_iff] at h0 ⊢
  intro p hp
  rcases mem_lruPutEntries hp with rfl | hmem
  · exact fun hk => h hk.symm
  · exact h0 p hmem

/-! ### Lemmas about the bounded `ObjectCache` operations -/

theorem get_snd_ioffset {T : Type} (c : ObjectCache T) (o : Nat) :
    ((c.get o).2).ioffset = c.ioffset := by
  unfold ObjectCache.get
  split
  · rfl
  · split <;> rfl

theorem get_by_hash_snd_ioffset {T : Type} (c : ObjectCache T) (h : Hash) :
    ((c.get_by_hash h).2).ioffset = c.ioffset := by
  unfold ObjectCache.get_by_hash
  split <;> rfl

theorem mem_get_snd_ihash {T : Type} {c : ObjectCache T} {o : Nat} {p : Hash × OffHash}
    (hp : p ∈ ((c.get o).2).ihash.entries) : p ∈ c.ihash.entries := by
  revert hp
  unfold ObjectCache.get
  split
  · exact fun hp => hp
  · split <;> exact fun hp => mem_lruGetEntries_snd hp

theorem mem_get_by_hash_snd_ihash {T : Type} {c : ObjectCache T} {h : Hash}
    {p : Hash × OffHash} (hp : p ∈ ((c.get_by_hash h).2).ihash.entries) :
    p ∈ c.ihash.entries := by
  revert hp
  unfold ObjectCache.get_by_hash
  split <;> exact fun hp => mem_lruGetEntries_snd hp

theorem lruLookup_get_snd_ihash {T : Type} (c : ObjectCache T) (o : Nat) (h : Hash) :
    lruLookup ((c.get o).2).ihash h = lruLookup c.ihash h := by
  unfold ObjectCache.get
  split
  · rfl
  · rename_i oh heq
    split <;> exact lruLookup_lruGet_snd c.ihash oh.h h

theorem lruLookup_get_by_hash_snd_ihash {T : Type} (c : ObjectCache T) (h' h : Hash) :
    lruLookup ((c.get_by_hash h').2).ihash h = lruLookup c.ihash h := by
  unfold ObjectCache.get_by_hash
  split <;> exact lruLookup_lruGet_snd c.ihash h' h

theorem step_caps {T : Type} (c : ObjectCache T) (op : Op T) :
    (step c op).ihash.cap = c.ihash.cap ∧ (step c op).inner.cap = c.inner.cap := by
  cases op with
  | put o h x => exact ⟨rfl, rfl⟩
  | get o =>
    show ((c.get o).2).ihash.cap = _ ∧ ((c.get o).2).inner.cap = _
    unfold ObjectCache.get
    split
    · exact ⟨rfl, rfl⟩
    · split <;> exact ⟨rfl, rfl⟩
  | getByHash h =>
    show ((c.get_by_hash h).2).ihash.cap = _ ∧ ((c.get_by_hash h).2).inner.cap = _
    unfold ObjectCache.get_by_hash
    split <;> exact ⟨rfl, rfl⟩
  | getHash o => exact ⟨rfl, rfl⟩

theorem run_caps {T : Type} (c : ObjectCache T) (ops : List (Op T)) :
    (run c ops).ihash.cap = c.ihash.cap ∧ (run c ops).inner.cap = c.inner.cap := by
  induction ops generalizing c with
  | nil => exact ⟨rfl, rfl⟩
  | cons op ops ih =>
    refine ⟨?_, ?_⟩ <;>
      simp only [run, List.foldl_cons] <;>
      rw [show (ops.foldl step (step c op)) = run (step c op) ops from rfl]
    · rw [(ih (step c op)).1, (step_caps c op).1]
    · rw [(ih (step c op)).2, (step_caps c op).2]

/-! ### Claim theorems -/

/-- Claim C6 (confirmed): last write wins on the offset index — immediately after any
`put(o, h, obj)` on the bounded cache, `get_hash(o) = Some(h)`, regardless of prior
puts at the same offset: the insert into the unbounded offset index replaces any
earlier mapping for `o`. -/
theorem C6_last_write_wins {T : Type} (c : ObjectCache T) (o : Nat) (h : Hash) (x : T) :
    (c.put o h x).get_hash o = some h := by
  show ((assocGet (assocInsert c.ioffset o ⟨o, h⟩) o).map (fun oh => oh.h)) = some h
  rw [assocGet_insert_self]
  rfl

/-- Claim C7 (confirmed): frame property of `get_hash` — the operation takes `&self`
(immutable borrow) and performs only a `HashMap::get` on the unbounded offset index,
so it leaves the whole cache state (including the recency order of both bounded LRU
structures) unchanged: inserting a `get_hash` anywhere in an operation sequence does
not change the resulting state. -/
theorem C7_get_hash_frame {T : Type} (c : ObjectCache T) (o : Nat)
    (l1 l2 : List (Op T)) :
    step c (Op.getHash o) = c ∧
      run c (l1 ++ Op.getHash o :: l2) = run c (l1 ++ l2) := by
  refine ⟨rfl, ?_⟩
  unfold run
  rw [List.foldl_append, List.foldl_append, List.foldl_cons]
  rfl

/-- Claim C8 (confirmed): `new(None)` builds an empty bounded cache with the documented
default capacity `CACHE_SIZE = 1000` for both bounded structures, while `new(Some(0))`
fails fast at construction (the `NonZeroUsize::new(0).unwrap()` panic, modelled as
`none`) instead of substituting the default. -/
theorem C8_constructor (T : Type) :
    CACHE_SIZE = 1000 ∧
      ObjectCache.new T none = some (ObjectCache.empty T 1000) ∧
      (ObjectCache.empty T 1000).ihash.cap = 1000 ∧
      (ObjectCache.empty T 1000).inner.cap = 1000 ∧
      ObjectCache.new T (some 0) = none :=
  ⟨rfl, rfl, rfl, rfl, rfl⟩

/-- Claim C10 (confirmed): the distributed variant's constructor ignores the capacity
hint — for every size argument `s` (including `some 0`) it returns exactly
`Self::default()`, the same state as `new(None)`: empty local offset index and the
default remote-store client.  Construction is a total function (it can never fail on
any capacity value). -/
theorem C10_distributed_new_ignores_size (T : Type) (s : Option Nat) :
    kvstore.ObjectCache.new T s = kvstore.ObjectCache.new T none ∧
      kvstore.ObjectCache.new T s = kvstore.ObjectCache.default T ∧
      (kvstore.ObjectCache.new T s).ioffset = [] ∧
      (kvstore.ObjectCache.new T s).inner = kvstore.KVCache.new T :=
  ⟨rfl, rfl, rfl, rfl⟩

/-- Claim C9 (code_bug), evaluated at the failing input: take a distributed cache whose
local offset index maps offset 1 to hash 5, whose remote store holds 5 ↦ 42, and whose
transport is faulty.  Then `get(1)` and `get_by_hash(5)` return `none` — observably
identical to a genuine miss on a healthy empty cache — because the remote client's
`get(key) -> Option<value>` interface has no error channel; only `put` surfaces the
fault (as the `unwrap` panic, modelled `Except.error`), and even that is a process
abort rather than a recoverable error value.  So a transport fault during `get` /
`get_by_hash` is coerced into "not found", contradicting the claim. -/
theorem C9_fault_indistinguishable_from_miss :
    kvstore.ObjectCache.get (⟨[(1, 5)], ⟨[(5, 42)], true⟩⟩ : kvstore.ObjectCache Nat) 1
        = none ∧
      kvstore.ObjectCache.get_by_hash
        (⟨[(1, 5)], ⟨[(5, 42)], true⟩⟩ : kvstore.ObjectCache Nat) 5 = none ∧
      kvstore.ObjectCache.get (kvstore.ObjectCache.default Nat) 1 = none ∧
      kvstore.ObjectCache.get_by_hash (kvstore.ObjectCache.default Nat) 5 = none ∧
      kvstore.ObjectCache.put
        (⟨[(1, 5)], ⟨[(5, 42)], true⟩⟩ : kvstore.ObjectCache Nat) 2 7 99
        = Except.error () :=
  ⟨rfl, rfl, rfl, rfl, rfl⟩

/-- Claim C2 counterexample: with capacity 2, after `put(1, hash 1, 10)` and
`put(1, hash 2, 20)` (same offset, different hash, nothing evicted), the triple
`(1, 1, 10)` is still present in both bounded indices — the hash index maps hash 1 to
`(1, 1)` and the object store holds `(1, 1) ↦ 10` — yet `get(1)` follows the
overwritten offset index and returns 20, not the inserted object 10.  The claim as
stated (eviction from a bounded index is the only excuse) is therefore false. -/
theorem C2_counterexample :
    lruLookup (run (ObjectCache.empty Nat 2) [Op.put 1 1 10, Op.put 1 2 20]).ihash 1
        = some ⟨1, 1⟩ ∧
      lruLookup (run (ObjectCache.empty Nat 2) [Op.put 1 1 10, Op.put 1 2 20]).inner
        ⟨1, 1⟩ = some 10 ∧
      ((run (ObjectCache.empty Nat 2) [Op.put 1 1 10, Op.put 1 2 20]).get 1).1
        = some 20 ∧
      ((run (ObjectCache.empty Nat 2) [Op.put 1 1 10, Op.put 1 2 20]).get 1).1
        ≠ some 10 := by
  refine ⟨rfl, rfl, rfl, ?_⟩
  decide

/-- Claim C2 as amended (proved): the round trip additionally requires that the
unbounded offset index still maps `o` to the composite key `(o, h)` — i.e. no later
`put` reused offset `o` with a different hash.  Under that footprint — offset index
maps `o ↦ (o, h)`, hash index holds `h ↦ (o, h)`, object store holds `(o, h) ↦ x` —
both `get(o)` and `get_by_hash(h)` return `some x`, the inserted object. -/
theorem C2_amended_round_trip {T : Type} (s : ObjectCache T) (o : Nat) (h : Hash)
    (x : T)
    (hio : assocGet s.ioffset o = some ⟨o, h⟩)
    (hih : lruLookup s.ihash h = some ⟨o, h⟩)
    (hin : lruLookup s.inner ⟨o, h⟩ = some x) :
    (s.get o).1 = some x ∧ (s.get_by_hash h).1 = some x := by
  have h1 : (s.ihash.get h).1 = some (⟨o, h⟩ : OffHash) := by
    rw [lruGet_fst]; exact hih
  have h2 : (s.inner.get (⟨o, h⟩ : OffHash)).1 = some x := by
    rw [lruGet_fst]; exact hin
  constructor
  · unfold ObjectCache.get
    rw [hio]
    simp only [h1, h2]
  · unfold ObjectCache.get_by_hash
    simp only [h1, h2]

/-- Witness for the amended claim C2 at a concrete input: after `put(1, 5, 10)` on an
empty capacity-2 cache, the three footprint hypotheses hold and both reads return 10. -/
theorem C2_amended_round_trip_witness :
    assocGet ((ObjectCache.empty Nat 2).put 1 5 10).ioffset 1 = some ⟨1, 5⟩ ∧
      lruLookup ((ObjectCache.empty Nat 2).put 1 5 10).ihash 5 = some ⟨1, 5⟩ ∧
      lruLookup ((ObjectCache.empty Nat 2).put 1 5 10).inner ⟨1, 5⟩ = some 10 ∧
      ((((ObjectCache.empty Nat 2).put 1 5 10).get 1).1 = some 10 ∧
        (((ObjectCache.empty Nat 2).put 1 5 10).get_by_hash 5).1 = some 10) :=
  ⟨rfl, rfl, rfl,
    C2_amended_round_trip ((ObjectCache.empty Nat 2).put 1 5 10) 1 5 10 rfl rfl rfl⟩

theorem assocGet_putAll_ioffset {T : Type} (c : ObjectCache T)
    (ts : List (Nat × Hash × T)) (o : Nat) (ho : ∀ t ∈ ts, t.1 ≠ o) :
    assocGet (putAll c ts).ioffset o = assocGet c.ioffset o := by
  induction ts generalizing c with
  | nil => rfl
  | cons t ts ih =>
    show assocGet (putAll (c.put t.1 t.2.1 t.2.2) ts).ioffset o = _
    rw [ih _ (fun u hu => ho u (List.mem_cons_of_mem _ hu))]
    show assocGet (assocInsert c.ioffset t.1 ⟨t.1, t.2.1⟩) o = _
    exact assocGet_insert_ne _ _ _ _ (Ne.symm (ho t (List.mem_cons_self t ts)))

/-- Claim C3 (confirmed): stale-offset tolerance.  Starting from any bounded-cache
state, after `put(o, h, obj)` followed by further puts at offsets other than `o`
("other distinct hashes") that end with `h` evicted from the bounded hash index,
`get_hash(o)` still returns `Some h` (the offset index is unbounded and never
evicted), while `get(o)` returns `None` — never a stale or wrong object, and, the
model being total, never a panic. -/
theorem C3_stale_offset_tolerance {T : Type} (s : ObjectCache T) (o : Nat) (h : Hash)
    (x : T) (ts : List (Nat × Hash × T))
    (ho : ∀ t ∈ ts, t.1 ≠ o)
    (hev : lruLookup (putAll (s.put o h x) ts).ihash h = none) :
    (putAll (s.put o h x) ts).get_hash o = some h ∧
      ((putAll (s.put o h x) ts).get o).1 = none := by
  have hio : assocGet (putAll (s.put o h x) ts).ioffset o = some ⟨o, h⟩ := by
    rw [assocGet_putAll_ioffset _ _ _ ho]
    exact assocGet_insert_self _ _ _
  have h1 : ((putAll (s.put o h x) ts).ihash.get h).1 = none := by
    rw [lruGet_fst]; exact hev
  constructor
  · unfold ObjectCache.get_hash
    rw [hio]
    rfl
  · unfold ObjectCache.get
    rw [hio]
    simp only [h1]

/-- Witness for claim C3 at a concrete input: capacity 1, `put(1, 5, 10)` then
`put(2, 7, 20)` evicts hash 5; afterwards `get_hash(1) = some 5` yet `get(1) = none`. -/
theorem C3_stale_offset_tolerance_witness :
    (∀ t ∈ [(2, 7, 20)], t.1 ≠ 1) ∧
      lruLookup (putAll ((ObjectCache.empty Nat 1).put 1 5 10) [(2, 7, 20)]).ihash 5
        = none ∧
      ((putAll ((ObjectCache.empty Nat 1).put 1 5 10) [(2, 7, 20)]).get_hash 1
          = some 5 ∧
        ((putAll ((ObjectCache.empty Nat 1).put 1 5 10) [(2, 7, 20)]).get 1).1
          = none) :=
  ⟨by decide, rfl,
    C3_stale_offset_tolerance (ObjectCache.empty Nat 1) 1 5 10 [(2, 7, 20)]
      (by decide) rfl⟩

theorem run_not_inserted {T : Type} (ops : List (Op T)) (o : Nat) (h : Hash) :
    ∀ (c : ObjectCache T),
    (∀ op ∈ ops, Op.putOffset op ≠ some o) →
    (∀ op ∈ ops, Op.putHash op ≠ some h) →
    assocGet c.ioffset o = none → lruLookup c.ihash h = none →
    assocGet (run c ops).ioffset o = none ∧ lruLookup (run c ops).ihash h = none := by
  induction ops with
  | nil => exact fun c _ _ h1 h2 => ⟨h1, h2⟩
  | cons op ops ih =>
    intro c ho hh h1 h2
    have hstep : assocGet (step c op).ioffset o = none ∧
        lruLookup (step c op).ihash h = none := by
      cases op with
      | put o1 h1x x1 =>
        have ho1 : o1 ≠ o := fun he => ho _ (List.mem_cons_self _ _) (by rw [he]; rfl)
        have hh1 : h1x ≠ h := fun he => hh _ (List.mem_cons_self _ _) (by rw [he]; rfl)
        constructor
        · show assocGet (assocInsert c.ioffset o1 ⟨o1, h1x⟩) o = none
          rw [assocGet_insert_ne _ _ _ _ (Ne.symm ho1)]
          exact h1
        · show lruLookup (c.ihash.put h1x ⟨o1, h1x⟩) h = none
          exact lruLookup_put_ne_none _ _ _ _ (Ne.symm hh1) h2
      | get o1 =>
        constructor
        · show assocGet ((c.get o1).2).ioffset o = none
          rw [get_snd_ioffset]
          exact h1
        · show lruLookup ((c.get o1).2).ihash h = none
          rw [lruLookup_get_snd_ihash]
          exact h2
      | getByHash h1x =>
        constructor
        · show assocGet ((c.get_by_hash h1x).2).ioffset o = none
          rw [get_by_hash_snd_ioffset]
          exact h1
        · show lruLookup ((c.get_by_hash h1x).2).ihash h = none
          rw [lruLookup_get_by_hash_snd_ihash]
          exact h2
      | getHash o1 => exact ⟨h1, h2⟩
    exact ih (step c op) (fun u hu => ho u (List.mem_cons_of_mem _ hu))
      (fun u hu => hh u (List.mem_cons_of_mem _ hu)) hstep.1 hstep.2

theorem get_by_hash_fst_of_ihash_none {T : Type} (c : ObjectCache T) (h : Hash)
    (hh : lruLookup c.ihash h = none) : (c.get_by_hash h).1 = none := by
  have h1 : (c.ihash.get h).1 = none := by
    rw [lruGet_fst]
    exact hh
  unfold ObjectCache.get_by_hash
  simp only [h1]

theorem get_fst_of_ihash_none {T : Type} (c : ObjectCache T) (o : Nat) (oh : OffHash)
    (hio : assocGet c.ioffset o = some oh) (hev : lruLookup c.ihash oh.h = none) :
    (c.get o).1 = none := by
  have h1 : (c.ihash.get oh.h).1 = none := by
    rw [lruGet_fst]
    exact hev
  unfold ObjectCache.get
  rw [hio]
  simp only [h1]

theorem get_by_hash_fst_of_inner_none {T : Type} (c : ObjectCache T) (h : Hash)
    (oh : OffHash) (hih : lruLookup c.ihash h = some oh)
    (hin : lruLookup c.inner oh = none) : (c.get_by_hash h).1 = none := by
  have h1 : (c.ihash.get h).1 = some oh := by
    rw [lruGet_fst]
    exact hih
  have h2 : (c.inner.get oh).1 = none := by
    rw [lruGet_fst]
    exact hin
  unfold ObjectCache.get_by_hash
  simp only [h1, h2]

/-- Claim C5 (confirmed): a miss never faults, whether the key was never inserted or
has since been evicted.  For every reachable state `run (empty cap) ops` of the
bounded cache: (i) if no `put` in the history ever used offset `o` and none ever used
hash `h` (never inserted), then `get_hash(o)`, `get(o)` and `get_by_hash(h)` all
return `None`; (ii) if hash `h` is absent from the bounded hash index — never
inserted or since evicted — `get_by_hash(h)` returns `None`; (iii) if the offset
index still maps `o` to a composite key whose hash has been evicted from the hash
index, `get(o)` returns `None`; (iv) if the hash index still maps `h` to a composite
key that has been evicted from the bounded object store, `get_by_hash(h)` returns
`None`.  All lookups are total functions in the model (mirroring code paths built
solely from `HashMap::get`, `LruCache::get` and the `?` early return — no
unwrap/panic and no error value on the lookup paths; absence is always `None`). -/
theorem C5_miss_returns_none {T : Type} (cap : Nat) (ops : List (Op T)) (o : Nat)
    (h : Hash) :
    ((∀ op ∈ ops, Op.putOffset op ≠ some o) → (∀ op ∈ ops, Op.putHash op ≠ some h) →
      (run (ObjectCache.empty T cap) ops).get_hash o = none ∧
        ((run (ObjectCache.empty T cap) ops).get o).1 = none ∧
        ((run (ObjectCache.empty T cap) ops).get_by_hash h).1 = none) ∧
      (lruLookup (run (ObjectCache.empty T cap) ops).ihash h = none →
        ((run (ObjectCache.empty T cap) ops).get_by_hash h).1 = none) ∧
      (∀ oh : OffHash, assocGet (run (ObjectCache.empty T cap) ops).ioffset o = some oh →
        lruLookup (run (ObjectCache.empty T cap) ops).ihash oh.h = none →
        ((run (ObjectCache.empty T cap) ops).get o).1 = none) ∧
      (∀ oh : OffHash, lruLookup (run (ObjectCache.empty T cap) ops).ihash h = some oh →
        lruLookup (run (ObjectCache.empty T cap) ops).inner oh = none →
        ((run (ObjectCache.empty T cap) ops).get_by_hash h).1 = none) := by
  refine ⟨?_, ?_, ?_, ?_⟩
  · intro ho hh
    obtain ⟨h1, h2⟩ := run_not_inserted ops o h (ObjectCache.empty T cap) ho hh rfl rfl
    refine ⟨?_, ?_, ?_⟩
    · unfold ObjectCache.get_hash
      rw [h1]
      rfl
    · unfold ObjectCache.get
      rw [h1]
    · exact get_by_hash_fst_of_ihash_none _ _ h2
  · exact get_by_hash_fst_of_ihash_none _ _
  · exact fun oh hio hev => get_fst_of_ihash_none _ _ oh hio hev
  · exact fun oh hih hin => get_by_hash_fst_of_inner_none _ _ oh hih hin

/-- Witness for claim C5 at concrete inputs, exercising both miss causes.
Never-inserted: a four-operation history that never touches offset 3 or hash 9, and
all three lookups for them return `none`.  Inserted-then-evicted: after
`put(1,5,10); put(2,5,20); put(3,6,30); get(1); put(4,7,40)` with capacity 2, hash 6
has been evicted from the hash index (`get_by_hash 6 = none`), offset 3 still maps to
the composite key `(3,6)` whose hash is evicted (`get 3 = none`), and hash 5 still
maps to `(2,5)` which has been evicted from the object store
(`get_by_hash 5 = none`). -/
theorem C5_miss_returns_none_witness :
    ((∀ op ∈ [Op.put 1 5 (10 : Nat), Op.get 1, Op.getByHash 5, Op.getHash 1],
        Op.putOffset op ≠ some 3) ∧
      (∀ op ∈ [Op.put 1 5 (10 : Nat), Op.get 1, Op.getByHash 5, Op.getHash 1],
        Op.putHash op ≠ some 9) ∧
      (run (ObjectCache.empty Nat 2)
          [Op.put 1 5 10, Op.get 1, Op.getByHash 5, Op.getHash 1]).get_hash 3
        = none ∧
      ((run (ObjectCache.empty Nat 2)
          [Op.put 1 5 10, Op.get 1, Op.getByHash 5, Op.getHash 1]).get 3).1 = none ∧
      ((run (ObjectCache.empty Nat 2)
          [Op.put 1 5 10, Op.get 1, Op.getByHash 5, Op.getHash 1]).get_by_hash 9).1
        = none) ∧
      (lruLookup (run (ObjectCache.empty Nat 2)
          [Op.put 1 5 10, Op.put 2 5 20, Op.put 3 6 30, Op.get 1,
            Op.put 4 7 40]).ihash 6 = none ∧
        ((run (ObjectCache.empty Nat 2)
          [Op.put 1 5 10, Op.put 2 5 20, Op.put 3 6 30, Op.get 1,
            Op.put 4 7 40]).get_by_hash 6).1 = none) ∧
      (assocGet (run (ObjectCache.empty Nat 2)
          [Op.put 1 5 10, Op.put 2 5 20, Op.put 3 6 30, Op.get 1,
            Op.put 4 7 40]).ioffset 3 = some ⟨3, 6⟩ ∧
        ((run (ObjectCache.empty Nat 2)
          [Op.put 1 5 10, Op.put 2 5 20, Op.put 3 6 30, Op.get 1,
            Op.put 4 7 40]).get 3).1 = none) ∧
      (lruLookup (run (ObjectCache.empty Nat 2)
          [Op.put 1 5 10, Op.put 2 5 20, Op.put 3 6 30, Op.get 1,
            Op.put 4 7 40]).ihash 5 = some ⟨2, 5⟩ ∧
        lruLookup (run (ObjectCache.empty Nat 2)
          [Op.put 1 5 10, Op.put 2 5 20, Op.put 3 6 30, Op.get 1,
            Op.put 4 7 40]).inner ⟨2, 5⟩ = none ∧
        ((run (ObjectCache.empty Nat 2)
          [Op.put 1 5 10, Op.put 2 5 20, Op.put 3 6 30, Op.get 1,
            Op.put 4 7 40]).get_by_hash 5).1 = none) :=
  ⟨(by
      obtain ⟨ha, hb, hc⟩ :=
        (C5_miss_returns_none 2 [Op.put 1 5 10, Op.get 1, Op.getByHash 5, Op.getHash 1]
          3 9).1 (by decide) (by decide)
      exact ⟨by decide, by decide, ha, hb, hc⟩),
    ⟨rfl,
      (C5_miss_returns_none 2
        [Op.put 1 5 10, Op.put 2 5 20, Op.put 3 6 30, Op.get 1, Op.put 4 7 40]
        3 6).2.1 rfl⟩,
    ⟨rfl,
      (C5_miss_returns_none 2
        [Op.put 1 5 10, Op.put 2 5 20, Op.put 3 6 30, Op.get 1, Op.put 4 7 40]
        3 6).2.2.1 ⟨3, 6⟩ rfl rfl⟩,
    ⟨rfl, rfl,
      (C5_miss_returns_none 2
        [Op.put 1 5 10, Op.put 2 5 20, Op.put 3 6 30, Op.get 1, Op.put 4 7 40]
        3 5).2.2.2 ⟨2, 5⟩ rfl rfl⟩⟩

theorem run_ihash_hash_component {T : Type} (ops : List (Op T)) :
    ∀ (c : ObjectCache T), (∀ p ∈ c.ihash.entries, p.2.h = p.1) →
    ∀ p ∈ (run c ops).ihash.entries, p.2.h = p.1 := by
  induction ops with
  | nil => exact fun c hc => hc
  | cons op ops ih =>
    intro c hc
    refine ih (step c op) ?_
    cases op with
    | put o1 h1 x1 =>
      intro p hp
      have hp1 : p ∈ lruPutEntries c.ihash.cap c.ihash.entries h1 ⟨o1, h1⟩ := hp
      rcases mem_lruPutEntries hp1 with rfl | hmem
      · rfl
      · exact hc p hmem
    | get o1 => exact fun p hp => hc p (mem_get_snd_ihash hp)
    | getByHash h1 => exact fun p hp => hc p (mem_get_by_hash_snd_ihash hp)
    | getHash o1 => exact hc

/-- Claim C1 counterexample: in the reachable state after `put(10, hash 4, 100)` and
`put(11, hash 4, 200)` (capacity 3, nothing evicted), the object store still contains
the composite key `(10, 4)`, but the hash index maps hash 4 to `(11, 4)`, not to
`(10, 4)` — so "inner containing key (o,h) implies ihash maps h to exactly (o,h)" is
violated: `put` with an already-present hash overwrites the hash index entry but adds
a fresh composite key to the object store, leaving the old key stale. -/
theorem C1_counterexample :
    lruLookup (run (ObjectCache.empty Nat 3) [Op.put 10 4 100, Op.put 11 4 200]).inner
        ⟨10, 4⟩ = some 100 ∧
      lruLookup (run (ObjectCache.empty Nat 3) [Op.put 10 4 100, Op.put 11 4 200]).ihash
        4 = some ⟨11, 4⟩ ∧
      lruLookup (run (ObjectCache.empty Nat 3) [Op.put 10 4 100, Op.put 11 4 200]).ihash
        4 ≠ some ⟨10, 4⟩ := by
  refine ⟨rfl, rfl, ?_⟩
  decide

/-- Claim C1 as amended (proved): the per-key consistency that does hold in every
reachable state of the bounded cache.  (a) Every entry of the hash index maps a hash
`k` to a composite key whose hash component is exactly `k`; and (b) `put(o, h, obj)`
re-establishes full consistency for the key it writes: immediately afterwards the hash
index maps `h` to exactly `(o, h)` and the object store contains `(o, h) ↦ obj`.  (A
key merely present in the object store need not be current in the hash index: a later
`put` of the same hash with a different offset redirects the hash index while the
stale composite key lingers in the object store, as the counterexample shows.) -/
theorem C1_amended_consistency {T : Type} (cap : Nat) (hcap : 1 ≤ cap)
    (ops : List (Op T)) (o : Nat) (h : Hash) (x : T) :
    (∀ p ∈ (run (ObjectCache.empty T cap) ops).ihash.entries, p.2.h = p.1) ∧
      lruLookup ((run (ObjectCache.empty T cap) ops).put o h x).ihash h = some ⟨o, h⟩ ∧
      lruLookup ((run (ObjectCache.empty T cap) ops).put o h x).inner ⟨o, h⟩ = some x := by
  refine ⟨run_ihash_hash_component ops _ (fun p hp => absurd hp (List.not_mem_nil p)) , ?_, ?_⟩
  · show lruLookup ((run (ObjectCache.empty T cap) ops).ihash.put h ⟨o, h⟩) h = _
    exact lruLookup_put_self _ _ _ (by rw [(run_caps (ObjectCache.empty T cap) ops).1]; exact hcap)
  · show lruLookup ((run (ObjectCache.empty T cap) ops).inner.put ⟨o, h⟩ x) ⟨o, h⟩ = _
    exact lruLookup_put_self _ _ _ (by rw [(run_caps (ObjectCache.empty T cap) ops).2]; exact hcap)

/-- Witness for the amended claim C1 at a concrete input: capacity 1, one prior `put`,
then `put(4, 5, 6)`. -/
theorem C1_amended_consistency_witness :
    1 ≤ 1 ∧
      ((∀ p ∈ (run (ObjectCache.empty Nat 1) [Op.put 1 2 3]).ihash.entries,
          p.2.h = p.1) ∧
        lruLookup ((run (ObjectCache.empty Nat 1) [Op.put 1 2 3]).put 4 5 6).ihash 5
          = some ⟨4, 5⟩ ∧
        lruLookup ((run (ObjectCache.empty Nat 1) [Op.put 1 2 3]).put 4 5 6).inner
          ⟨4, 5⟩ = some 6) :=
  ⟨Nat.le_refl 1, C1_amended_consistency 1 (Nat.le_refl 1) [Op.put 1 2 3] 4 5 6⟩

theorem putAll_ihash {T : Type} (ts : List (Nat × Hash × T)) :
    ∀ (c : ObjectCache T),
    (putAll c ts).ihash =
      ⟨c.ihash.cap,
        ihashFold c.ihash.cap c.ihash.entries (ts.map (fun t => (t.1, t.2.1)))⟩ := by
  induction ts with
  | nil => intro c; rfl
  | cons t ts ih =>
    intro c
    show (putAll (c.put t.1 t.2.1 t.2.2) ts).ihash = _
    rw [ih]
    rfl

theorem ihashFold_length_le (cap : Nat) (ps : List (Nat × Hash)) :
    ∀ l, l.length ≤ cap → (ihashFold cap l ps).length ≤ cap := by
  induction ps with
  | nil => exact fun l hl => hl
  | cons p ps ih =>
    intro l hl
    refine ih _ ?_
    show (lruPutEntries cap l p.2 ⟨p.1, p.2⟩).length ≤ cap
    unfold lruPutEntries
    rw [List.length_take]
    exact Nat.min_le_left _ _

theorem ihashFold_no_key (cap : Nat) (k0 : Hash) (ps : List (Nat × Hash)) :
    ∀ l, (∀ p ∈ ps, p.2 ≠ k0) → (∀ q ∈ l, q.1 ≠ k0) →
    ∀ q ∈ ihashFold cap l ps, q.1 ≠ k0 := by
  induction ps with
  | nil => exact fun l _ hl => hl
  | cons p ps ih =>
    intro l hps hl
    refine ih _ (fun u hu => hps u (List.mem_cons_of_mem _ hu)) ?_
    intro q hq
    have hq1 : q ∈ lruPutEntries cap l p.2 ⟨p.1, p.2⟩ := hq
    rcases mem_lruPutEntries hq1 with rfl | hmem
    · exact hps p (List.mem_cons_self _ _)
    · exact hl q hmem

theorem ihashFold_evicts (cap : Nat) (k0 : Hash) (oh0 : OffHash)
    (ps : List (Nat × Hash)) :
    ∀ (l : List (Hash × OffHash)) (i : Nat),
    (∀ p ∈ ps, ∀ q ∈ l, p.2 ≠ q.1) →
    (ps.map (fun p => p.2)).Nodup →
    (∀ p ∈ ps, p.2 ≠ k0) →
    (∃ front, l = front ++ [(k0, oh0)] ∧ front.length = i ∧ ∀ q ∈ front, q.1 ≠ k0) →
    (∀ q ∈ ihashFold cap l ps, q.1 ≠ k0) ∨
      (∃ front, ihashFold cap l ps = front ++ [(k0, oh0)] ∧
        front.length = i + ps.length ∧ ∀ q ∈ front, q.1 ≠ k0) := by
  induction ps with
  | nil =>
    intro l i _ _ _ hInv
    right
    obtain ⟨f, hf, hflen, hfk⟩ := hInv
    exact ⟨f, hf, by simpa using hflen, hfk⟩
  | cons p ps ih =>
    intro l i hfresh hnodup hk0 hInv
    obtain ⟨front, rfl, hflen, hfk⟩ := hInv
    have hfilter : (front ++ [(k0, oh0)]).filter (fun q => decide (q.1 ≠ p.2))
        = front ++ [(k0, oh0)] := by
      refine List.filter_eq_self.2 ?_
      intro q hq
      simpa using (hfresh p (List.mem_cons_self _ _) q hq).symm
    have hstep : lruPutEntries cap (front ++ [(k0, oh0)]) p.2 ⟨p.1, p.2⟩
        = (((p.2, (⟨p.1, p.2⟩ : OffHash)) :: front) ++ [(k0, oh0)]).take cap := by
      unfold lruPutEntries assocInsert
      rw [hfilter]
      rfl
    have hforward :
        ihashFold cap (front ++ [(k0, oh0)]) (p :: ps)
          = ihashFold cap (lruPutEntries cap (front ++ [(k0, oh0)]) p.2 ⟨p.1, p.2⟩) ps :=
      rfl
    by_cases hcap : cap ≤ i + 1
    · left
      rw [hforward]
      refine ihashFold_no_key cap k0 ps _
        (fun u hu => hk0 u (List.mem_cons_of_mem _ hu)) ?_
      intro q hq
      rw [hstep, List.take_append_eq_append_take] at hq
      have h0 : cap - ((p.2, (⟨p.1, p.2⟩ : OffHash)) :: front).length = 0 := by
        simp only [List.length_cons, hflen]
        omega
      rw [h0, List.take_zero, List.append_nil] at hq
      rcases List.mem_cons.1 (List.mem_of_mem_take hq) with rfl | hqf
      · exact hk0 p (List.mem_cons_self _ _)
      · exact hfk q hqf
    · have hlt : i + 1 < cap := Nat.lt_of_not_le hcap
      have hstep2 : lruPutEntries cap (front ++ [(k0, oh0)]) p.2 ⟨p.1, p.2⟩
          = ((p.2, (⟨p.1, p.2⟩ : OffHash)) :: front) ++ [(k0, oh0)] := by
        rw [hstep, List.take_append_eq_append_take]
        have hlen1 : ((p.2, (⟨p.1, p.2⟩ : OffHash)) :: front).length ≤ cap := by
          simp only [List.length_cons, hflen]
          omega
        have hlen2 : ([((k0 : Hash), oh0)]).length
            ≤ cap - ((p.2, (⟨p.1, p.2⟩ : OffHash)) :: front).length := by
          simp only [List.length_cons, List.length_nil, hflen]
          omega
        rw [List.take_of_length_le hlen1, List.take_of_length_le hlen2]
      have hmem2 : ∀ q ∈ ((p.2, (⟨p.1, p.2⟩ : OffHash)) :: front) ++ [(k0, oh0)],
          q = (p.2, (⟨p.1, p.2⟩ : OffHash)) ∨ q ∈ front ++ [(k0, oh0)] := by
        intro q hq
        rcases List.mem_append.1 hq with hq1 | hq1
        · rcases List.mem_cons.1 hq1 with rfl | hq2
          · exact Or.inl rfl
          · exact Or.inr (List.mem_append.2 (Or.inl hq2))
        · exact Or.inr (List.mem_append.2 (Or.inr hq1))
      have hres := ih (((p.2, (⟨p.1, p.2⟩ : OffHash)) :: front) ++ [(k0, oh0)]) (i + 1)
        (by
          intro u hu q hq
          rcases hmem2 q hq with rfl | hq2
          · intro he
            have hu2 : u.2 ∈ ps.map (fun p => p.2) := List.mem_map.2 ⟨u, hu, rfl⟩
            have hne : p.2 ∉ ps.map (fun p => p.2) := by
              have h := hnodup
              rw [List.map_cons, List.nodup_cons] at h
              exact h.1
            rw [he] at hu2
            exact hne hu2
          · exact hfresh u (List.mem_cons_of_mem _ hu) q hq2)
        (by
          have h := hnodup
          rw [List.map_cons, List.nodup_cons] at h
          exact h.2)
        (fun u hu => hk0 u (List.mem_cons_of_mem _ hu))
        ⟨(p.2, (⟨p.1, p.2⟩ : OffHash)) :: front,
          rfl,
          by simp only [List.length_cons, hflen],
          by
            intro q hq
            rcases List.mem_cons.1 hq with rfl | hq2
            · exact hk0 p (List.mem_cons_self _ _)
            · exact hfk q hq2⟩
      rw [hforward, hstep2]
      rcases hres with hres | ⟨f, hf, hflen2, hfk2⟩
      · exact Or.inl hres
      · exact Or.inr ⟨f, hf, by rw [hflen2]; simp only [List.length_cons]; omega, hfk2⟩

/-- Claim C4 (confirmed): eviction bound.  For a bounded cache constructed with
`new(Some N)` (so `N ≥ 1`, else construction fails), after inserting `N + 1` triples
with pairwise-distinct offsets and pairwise-distinct hashes and no intervening reads,
the very first inserted hash — in particular, at least one of the first-inserted
hashes — is no longer retrievable: `get_by_hash` of it returns `None`.  (The first
entry is never promoted, so after `N` further fresh insertions into the capacity-`N`
LRU hash index it has been evicted.) -/
theorem C4_eviction_bound {T : Type} (N : Nat) (c : ObjectCache T)
    (hnew : ObjectCache.new T (some N) = some c)
    (t0 : Nat × Hash × T) (ts : List (Nat × Hash × T))
    (hlen : ts.length = N)
    (_hoff : ((t0 :: ts).map (fun t => t.1)).Nodup)
    (hhash : ((t0 :: ts).map (fun t => t.2.1)).Nodup) :
    ((putAll c (t0 :: ts)).get_by_hash t0.2.1).1 = none := by
  have hN : N ≠ 0 := by
    intro h0
    rw [h0] at hnew
    simp [ObjectCache.new, nonZeroUsizeNew] at hnew
  have hc : c = ObjectCache.empty T N := by
    simp [ObjectCache.new, nonZeroUsizeNew, hN] at hnew
    exact hnew.symm
  subst hc
  have hl1 : lruPutEntries N ([] : List (Hash × OffHash)) t0.2.1 ⟨t0.1, t0.2.1⟩
      = [(t0.2.1, ⟨t0.1, t0.2.1⟩)] := by
    unfold lruPutEntries assocInsert
    rw [List.filter_nil]
    exact List.take_of_length_le (by simp; omega)
  have hk0notin : t0.2.1 ∉ ts.map (fun t => t.2.1) := by
    have h := hhash
    rw [List.map_cons, List.nodup_cons] at h
    exact h.1
  have hpsk0 : ∀ p ∈ ts.map (fun t => (t.1, t.2.1)), p.2 ≠ t0.2.1 := by
    intro p hp he
    obtain ⟨u, hu, rfl⟩ := List.mem_map.1 hp
    exact hk0notin (List.mem_map.2 ⟨u, hu, he⟩)
  have hpsnodup : ((ts.map (fun t => (t.1, t.2.1))).map (fun p => p.2)).Nodup := by
    rw [List.map_map]
    have h := hhash
    rw [List.map_cons, List.nodup_cons] at h
    exact h.2
  have hmain := ihashFold_evicts N t0.2.1 ⟨t0.1, t0.2.1⟩
    (ts.map (fun t => (t.1, t.2.1))) [(t0.2.1, ⟨t0.1, t0.2.1⟩)] 0
    (by
      intro u hu q hq
      rcases List.mem_cons.1 hq with rfl | hq2
      · exact hpsk0 u hu
      · exact absurd hq2 (List.not_mem_nil q))
    hpsnodup
    hpsk0
    ⟨[], rfl, rfl, fun q hq => absurd hq (List.not_mem_nil q)⟩
  have hE : (putAll (ObjectCache.empty T N) (t0 :: ts)).ihash.entries
      = ihashFold N [(t0.2.1, ⟨t0.1, t0.2.1⟩)] (ts.map (fun t => (t.1, t.2.1))) := by
    rw [putAll_ihash]
    show ihashFold N (lruPutEntries N [] t0.2.1 ⟨t0.1, t0.2.1⟩)
      (ts.map (fun t => (t.1, t.2.1))) = _
    rw [hl1]
  rcases hmain with hleft | ⟨front, hf, hflen2, _⟩
  · have hlook : lruLookup (putAll (ObjectCache.empty T N) (t0 :: ts)).ihash t0.2.1
        = none := by
      show assocGet (putAll (ObjectCache.empty T N) (t0 :: ts)).ihash.entries t0.2.1
        = none
      rw [hE]
      exact (assocGet_eq_none_iff _ _).2 hleft
    have h3 : ((putAll (ObjectCache.empty T N) (t0 :: ts)).ihash.get t0.2.1).1
        = none := by
      rw [lruGet_fst]
      exact hlook
    unfold ObjectCache.get_by_hash
    simp only [h3]
  · exfalso
    have hble : (ihashFold N [(t0.2.1, ⟨t0.1, t0.2.1⟩)]
        (ts.map (fun t => (t.1, t.2.1)))).length ≤ N :=
      ihashFold_length_le N _ _ (by simp; omega)
    rw [hf] at hble
    rw [List.length_append, hflen2] at hble
    simp only [List.length_map, hlen, List.length_singleton] at hble
    omega

/-- Witness for claim C4 at a concrete input: capacity 1, insert `(1, 5, 10)` then
`(2, 7, 20)`; the first hash 5 is evicted, so `get_by_hash 5` returns `none`. -/
theorem C4_eviction_bound_witness :
    ObjectCache.new Nat (some 1) = some (ObjectCache.empty Nat 1) ∧
      ([((2 : Nat), (7 : Hash), (20 : Nat))]).length = 1 ∧
      ((((1 : Nat), (5 : Hash), (10 : Nat)) :: [(2, 7, 20)]).map
        (fun t => t.1)).Nodup ∧
      ((((1 : Nat), (5 : Hash), (10 : Nat)) :: [(2, 7, 20)]).map
        (fun t => t.2.1)).Nodup ∧
      ((putAll (ObjectCache.empty Nat 1) [(1, 5, 10), (2, 7, 20)]).get_by_hash 5).1
        = none :=
  ⟨rfl, rfl, by decide, by decide,
    C4_eviction_bound 1 (ObjectCache.empty Nat 1) rfl (1, 5, 10) [(2, 7, 20)] rfl
      (by decide) (by decide)⟩

end MegaPackCache
